import Mathlib

/-!
Formal model of the polyphase rational resampler (src/Resampler.cpp,
src/lib/Resampler.h).

The development shallowly embeds the engine:

- the path table computed by Resampler::resize;
- the prototype filter designed by Resampler::init (Blackman-Harris
  windowed sinc), modelled over the real numbers;
- the streaming operation RealResampler::resample and
  ComplexResampler::resample, including the COPY_INPUT size checks, the
  lazily grown path table, the extended buffer, the history update and the
  optional integer saturation.  The C++ code instantiates the same template
  at double, float, long, int, short and char; the model is parametric over
  a linear ordered field K of sample values (exact arithmetic standing for
  the double-precision accumulator) and an optional saturation interval
  standing for numeric_limits of the integral element types.

Machine-integer remarks: P, Q, taps are C++ unsigned; the code is only
defined for positive P and Q (resize divides by P, the size checks divide
by Q), which the theorems assume explicitly.  The history allocation
history(taps-1) wraps modulo 2^32 when taps = 0, which histSize models.
-/

namespace Resample

/-- One entry of the path table, as computed in Resampler::resize: for output
index i the pair (inputOffset, partitionIndex) = (Q*i / P, Q*i % P). -/
def pathEntry (P Q i : ℕ) : ℕ × ℕ := (Q * i / P, Q * i % P)

/-- Resampler::resize n: the path table holds n entries and every entry is
recomputed from its index. -/
def resize (P Q n : ℕ) : List (ℕ × ℕ) := (List.range n).map (pathEntry P Q)

/-- DEFAULT_PATH_LEN from Resampler.cpp. -/
def DEFAULT_PATH_LEN : ℕ := 128

/-- Length of the history buffer allocated as history(taps-1) where taps is a
32-bit unsigned integer: the subtraction wraps modulo 2^32 when taps = 0.
For 1 <= taps < 2^32 this is taps - 1. -/
def histSize (taps : ℕ) : ℕ := (taps + (2 ^ 32 - 1)) % 2 ^ 32

/-- The state of a resampler: the base-class fields P, Q, partitions and
paths, plus the derived-class history buffer.  K is the coefficient scalar
type, α the sample element type (K itself for RealResampler, K × K for
ComplexResampler, the pair standing for std::complex). -/
structure Resampler (K : Type) (α : Type) where
  P : ℕ
  Q : ℕ
  partitions : List (List K)
  paths : List (ℕ × ℕ)
  history : List α
  deriving DecidableEq

/-- The sinc lambda of Resampler::init: sinc 0 = 1, otherwise
sin (pi x) / (pi x). -/
noncomputable def sinc (x : ℝ) : ℝ :=
  if x = 0 then 1 else Real.sin (Real.pi * x) / (Real.pi * x)

/-- The four-term Blackman-Harris window of Resampler::init with coefficients
a = 0.35875, 0.48829, 0.14128, 0.01168, over the full prototype length N. -/
noncomputable def window4 (N i : ℕ) : ℝ :=
  0.35875 - 0.48829 * Real.cos (2 * Real.pi * i / N)
    + 0.14128 * Real.cos (4 * Real.pi * i / N)
    - 0.01168 * Real.cos (6 * Real.pi * i / N)

/-- One un-normalized prototype sample of Resampler::init:
sinc ((i - N/2) / cutoff) times the window, with N = P * taps and
cutoff = max P Q (the constructor passes P > Q ? P : Q). -/
noncomputable def protoSample (P Q taps i : ℕ) : ℝ :=
  sinc (((i : ℝ) - (P * taps : ℕ) / 2) / (max P Q : ℕ)) * window4 (P * taps) i

/-- The running sum accumulated over the prototype pass of Resampler::init. -/
noncomputable def protoSum (P Q taps : ℕ) : ℝ :=
  ∑ i in Finset.range (P * taps), protoSample P Q taps i

/-- beta = partitions.size() / sum in Resampler::init. -/
noncomputable def filterBeta (P Q taps : ℕ) : ℝ := (P : ℕ) / protoSum P Q taps

/-- Resampler::init: partition p holds, at tap slot j, proto[j*P + p] * beta;
afterwards every partition is reversed in place. -/
noncomputable def init (P Q taps : ℕ) : List (List ℝ) :=
  (List.range P).map fun p =>
    ((List.range taps).map fun j =>
      protoSample P Q taps (j * P + p) * filterBeta P Q taps).reverse

/-- The size check at the top of the COPY_INPUT macro:
input.size() % Q || output.size() % P ||
input.size() / Q != output.size() / P || input.size() < history.size(). -/
def badSizes (Q P histLen inLen outLen : ℕ) : Bool :=
  inLen % Q != 0 || outLen % P != 0 || inLen / Q != outLen / P ||
    decide (inLen < histLen)

/-- Common body of RealResampler::resample and ComplexResampler::resample
(the COPY_INPUT macro followed by the convolution loop).  conv computes one
output sample from a partition, the extended buffer and an input offset; the
real and the complex instantiation plug in their saturated dot products.
Returns the output written into the caller buffer together with the state of
the engine after the call; the size-check failure (throw invalid_argument)
returns the error and the unchanged state. -/
def resampleG {K α : Type} (conv : List K → List α → ℕ → α)
    (r : Resampler K α) (input : List α) (outLen : ℕ) :
    Except String (List α) × Resampler K α :=
  if badSizes r.Q r.P r.history.length input.length outLen then
    (Except.error "Invalid vector size(s)", r)
  else
    let paths := if r.paths.length < outLen then resize r.P r.Q outLen
                 else r.paths
    let x := r.history ++ input
    let out := (List.range outLen).map fun i =>
      let pe := paths.getD i (0, 0)
      conv (r.partitions.getD pe.2 []) x pe.1
    (Except.ok out,
      { r with paths := paths,
               history := input.drop (input.length - r.history.length) })

/-- The inner loop of RealResampler::resample: the double accumulator starts
at 0 and adds h[j] * x[off + j] for j = 0 .. h.size()-1, in order. -/
def dotAcc {K : Type} [LinearOrderedField K] (h x : List K) (off : ℕ) : K :=
  (List.range h.length).foldl (fun a j => a + h.getD j 0 * x.getD (off + j) 0) 0

/-- The saturation block of RealResampler::resample: when the element type is
integral (sat = some (typeMin, typeMax)) the accumulator is clamped with
a = max typeMin a; a = min typeMax a.  For floating element types
(sat = none) the value passes through. -/
def saturate {K : Type} [LinearOrderedField K] : Option (K × K) → K → K
  | none, a => a
  | some (lo, hi), a => min hi (max lo a)

/-- RealResampler::resample. -/
def RealResampler.resample {K : Type} [LinearOrderedField K]
    (r : Resampler K K) (sat : Option (K × K)) (input : List K) (outLen : ℕ) :
    Except String (List K) × Resampler K K :=
  resampleG (fun h x off => saturate sat (dotAcc h x off)) r input outLen

/-- The inner loop of ComplexResampler::resample: the complex<double>
accumulator adds complex(h[j] * x.real, h[j] * x.imag) componentwise. -/
def dotAccC {K : Type} [LinearOrderedField K]
    (h : List K) (x : List (K × K)) (off : ℕ) : K × K :=
  (List.range h.length).foldl
    (fun a j =>
      (a.1 + h.getD j 0 * (x.getD (off + j) (0, 0)).1,
       a.2 + h.getD j 0 * (x.getD (off + j) (0, 0)).2)) (0, 0)

/-- The saturation block of ComplexResampler::resample: each component is
clamped independently. -/
def saturateC {K : Type} [LinearOrderedField K] :
    Option (K × K) → K × K → K × K
  | none, a => a
  | some (lo, hi), a => (min hi (max lo a.1), min hi (max lo a.2))

/-- ComplexResampler::resample. -/
def ComplexResampler.resample {K : Type} [LinearOrderedField K]
    (r : Resampler K (K × K)) (sat : Option (K × K)) (input : List (K × K))
    (outLen : ℕ) : Except String (List (K × K)) × Resampler K (K × K) :=
  resampleG (fun h x off => saturateC sat (dotAccC h x off)) r input outLen

/-- The construction sequence shared by both derived classes: the Resampler
base constructor runs init, then resize DEFAULT_PATH_LEN, and the derived
constructor allocates the zero history of histSize taps elements.  The base
constructor performs no parameter validation; resize divides Q*i by P, so
P = 0 is an unsigned division by zero, modelled as the error case. -/
def mkResampler {K α : Type} (z : α) (parts : List (List K)) (P Q taps : ℕ) :
    Except String (Resampler K α) :=
  if P = 0 then Except.error "division by zero in resize"
  else Except.ok
    { P := P, Q := Q, partitions := parts,
      paths := resize P Q DEFAULT_PATH_LEN,
      history := List.replicate (histSize taps) z }

/-- RealResampler::RealResampler(P, Q, taps). -/
noncomputable def RealResampler.construct (P Q taps : ℕ) :
    Except String (Resampler ℝ ℝ) :=
  mkResampler 0 (init P Q taps) P Q taps

/-- ComplexResampler::ComplexResampler(P, Q, taps). -/
noncomputable def ComplexResampler.construct (P Q taps : ℕ) :
    Except String (Resampler ℝ (ℝ × ℝ)) :=
  mkResampler (0, 0) (init P Q taps) P Q taps

/-- Every cached path-table entry is the pathEntry of its index. -/
def pathsOk {K α : Type} (r : Resampler K α) : Prop :=
  ∀ i < r.paths.length, r.paths.getD i (0, 0) = pathEntry r.P r.Q i

/-- A small concrete engine state over ℚ (P = Q = 1, taps = 1, one partition
holding the single coefficient 2, empty history), used to evaluate the
theorems on explicit inputs. -/
def exR1 : Resampler ℚ ℚ := ⟨1, 1, [[2]], [(0, 0)], []⟩

instance {ε α : Type} [DecidableEq ε] [DecidableEq α] :
    DecidableEq (Except ε α) := fun x y => by
  cases x <;> cases y
  case error.error a b =>
    exact decidable_of_iff (a = b) (iff_of_eq (Except.error.injEq a b)).symm
  case error.ok a b => exact Decidable.isFalse fun h => Except.noConfusion h
  case ok.error a b => exact Decidable.isFalse fun h => Except.noConfusion h
  case ok.ok a b =>
    exact decidable_of_iff (a = b) (iff_of_eq (Except.ok.injEq a b)).symm

/-! Helper lemmas about the embedding. -/

theorem badSizes_eq_false {Q P histLen inLen outLen : ℕ} :
    badSizes Q P histLen inLen outLen = false ↔
      inLen % Q = 0 ∧ outLen % P = 0 ∧ inLen / Q = outLen / P ∧
        histLen ≤ inLen := by
  simp [badSizes, Nat.not_lt, and_assoc]

theorem resize_length (P Q n : ℕ) : (resize P Q n).length = n := by
  simp [resize]

theorem resize_getD {P Q n i : ℕ} (h : i < n) :
    (resize P Q n).getD i (0, 0) = pathEntry P Q i := by
  rw [List.getD_eq_getElem _ _ (by simpa [resize_length] using h)]
  simp [resize]

theorem resampleG_of_badSizes {K α : Type} (conv : List K → List α → ℕ → α)
    (r : Resampler K α) (input : List α) (outLen : ℕ)
    (h : badSizes r.Q r.P r.history.length input.length outLen = true) :
    resampleG conv r input outLen =
      (Except.error "Invalid vector size(s)", r) := by
  simp [resampleG, h]

theorem resampleG_of_goodSizes {K α : Type} (conv : List K → List α → ℕ → α)
    (r : Resampler K α) (input : List α) (outLen : ℕ)
    (h : badSizes r.Q r.P r.history.length input.length outLen = false) :
    resampleG conv r input outLen =
      (Except.ok ((List.range outLen).map fun i =>
        let pe := (if r.paths.length < outLen then resize r.P r.Q outLen
                   else r.paths).getD i (0, 0)
        conv (r.partitions.getD pe.2 []) (r.history ++ input) pe.1),
       { r with
           paths := if r.paths.length < outLen then resize r.P r.Q outLen
                    else r.paths,
           history := input.drop (input.length - r.history.length) }) := by
  simp [resampleG, h]

/-- Destructing a successful call: the size checks passed, the output is the
map over the output indices and the new state differs from the old one only
in the path table and the history. -/
theorem resampleG_ok_elim {K α : Type} {conv : List K → List α → ℕ → α}
    {r r' : Resampler K α} {input : List α} {outLen : ℕ} {out : List α}
    (h : resampleG conv r input outLen = (Except.ok out, r')) :
    badSizes r.Q r.P r.history.length input.length outLen = false ∧
    out = ((List.range outLen).map fun i =>
      let pe := (if r.paths.length < outLen then resize r.P r.Q outLen
                 else r.paths).getD i (0, 0)
      conv (r.partitions.getD pe.2 []) (r.history ++ input) pe.1) ∧
    r' = { r with
             paths := if r.paths.length < outLen then resize r.P r.Q outLen
                      else r.paths,
             history := input.drop (input.length - r.history.length) } := by
  by_cases hb : badSizes r.Q r.P r.history.length input.length outLen
  · rw [resampleG_of_badSizes conv r input outLen hb] at h
    injection h with h1 h2
    exact Except.noConfusion h1
  · rw [resampleG_of_goodSizes conv r input outLen (by simpa using hb)] at h
    injection h with h1 h2
    injection h1 with h1
    exact ⟨by simpa using hb, h1.symm, h2.symm⟩

/-- The table the convolution loop walks (after the optional growth) agrees
with pathEntry on every used index. -/
theorem usedPaths_getD {K α : Type} (r : Resampler K α) (outLen i : ℕ)
    (hp : pathsOk r) (hi : i < outLen) :
    (if r.paths.length < outLen then resize r.P r.Q outLen
     else r.paths).getD i (0, 0) = pathEntry r.P r.Q i := by
  by_cases hlen : r.paths.length < outLen
  · rw [if_pos hlen]; exact resize_getD hi
  · rw [if_neg hlen]
    exact hp i (lt_of_lt_of_le hi (Nat.not_lt.mp hlen))

theorem resampleG_out_length {K α : Type} {conv : List K → List α → ℕ → α}
    {r r' : Resampler K α} {input : List α} {outLen : ℕ} {out : List α}
    (h : resampleG conv r input outLen = (Except.ok out, r')) :
    out.length = outLen := by
  obtain ⟨-, h2, -⟩ := resampleG_ok_elim h
  subst h2; simp

theorem resampleG_out_getD {K α : Type} {conv : List K → List α → ℕ → α}
    {r r' : Resampler K α} {input : List α} {outLen i : ℕ} {out : List α}
    (d : α) (h : resampleG conv r input outLen = (Except.ok out, r'))
    (hp : pathsOk r) (hi : i < outLen) :
    out.getD i d =
      conv (r.partitions.getD (r.Q * i % r.P) []) (r.history ++ input)
        (r.Q * i / r.P) := by
  obtain ⟨-, h2, -⟩ := resampleG_ok_elim h
  subst h2
  rw [List.getD_eq_getElem _ _ (by simpa using hi)]
  simp only [List.getElem_map, List.getElem_range,
    usedPaths_getD r outLen i hp hi]
  rfl

theorem resampleG_state {K α : Type} {conv : List K → List α → ℕ → α}
    {r r' : Resampler K α} {input : List α} {outLen : ℕ} {out : List α}
    (h : resampleG conv r input outLen = (Except.ok out, r')) :
    r'.P = r.P ∧ r'.Q = r.Q ∧ r'.partitions = r.partitions ∧
    r'.history = input.drop (input.length - r.history.length) ∧
    r'.paths = (if r.paths.length < outLen then resize r.P r.Q outLen
                else r.paths) := by
  obtain ⟨-, -, h3⟩ := resampleG_ok_elim h
  subst h3; exact ⟨rfl, rfl, rfl, rfl, rfl⟩

theorem pathsOk_after {K α : Type} {conv : List K → List α → ℕ → α}
    {r r' : Resampler K α} {input : List α} {outLen : ℕ} {out : List α}
    (h : resampleG conv r input outLen = (Except.ok out, r'))
    (hp : pathsOk r) : pathsOk r' := by
  obtain ⟨-, -, h3⟩ := resampleG_ok_elim h
  subst h3
  intro i hi
  by_cases hlen : r.paths.length < outLen
  · simp only [if_pos hlen] at hi ⊢
    exact resize_getD (by simpa [resize_length] using hi)
  · simp only [if_neg hlen] at hi ⊢
    exact hp i hi

theorem foldl_add_range {M : Type} [AddCommMonoid M] (f : ℕ → M) (n : ℕ) :
    (List.range n).foldl (fun a j => a + f j) 0 = ∑ j in Finset.range n, f j := by
  induction n with
  | zero => simp
  | succ n ih => rw [List.range_succ, List.foldl_append]; simp [ih, Finset.sum_range_succ]

/-- The in-order double accumulation of the real inner loop is the indexed
sum over the taps of the partition. -/
theorem dotAcc_eq_sum {K : Type} [LinearOrderedField K]
    (h x : List K) (off : ℕ) :
    dotAcc h x off =
      ∑ j in Finset.range h.length, h.getD j 0 * x.getD (off + j) 0 :=
  foldl_add_range _ _

theorem pair_sum {M N : Type} [AddCommMonoid M] [AddCommMonoid N]
    (f : ℕ → M) (g : ℕ → N) (n : ℕ) :
    ∑ j in Finset.range n, ((f j, g j) : M × N) =
      (∑ j in Finset.range n, f j, ∑ j in Finset.range n, g j) := by
  induction n with
  | zero => simp
  | succ n ih => simp [Finset.sum_range_succ, ih, Prod.ext_iff]

/-- The complex inner loop accumulates the real and the imaginary component
independently, each against the same real coefficients. -/
theorem dotAccC_eq_sum {K : Type} [LinearOrderedField K]
    (h : List K) (x : List (K × K)) (off : ℕ) :
    dotAccC h x off =
      (∑ j in Finset.range h.length, h.getD j 0 * (x.getD (off + j) (0, 0)).1,
       ∑ j in Finset.range h.length, h.getD j 0 * (x.getD (off + j) (0, 0)).2) := by
  have hrw : dotAccC h x off = (List.range h.length).foldl
      (fun a j => a + (h.getD j 0 * (x.getD (off + j) (0, 0)).1,
                       h.getD j 0 * (x.getD (off + j) (0, 0)).2))
      (0 : K × K) := rfl
  rw [hrw, foldl_add_range
    (fun j => (h.getD j 0 * (x.getD (off + j) (0, 0)).1,
               h.getD j 0 * (x.getD (off + j) (0, 0)).2)) h.length,
    pair_sum]

/-- The dot product only reads the window of h.length samples starting at the
offset. -/
theorem dotAcc_congr {K : Type} [LinearOrderedField K] {h x y : List K}
    {o o' : ℕ} (hxy : ∀ j < h.length, x.getD (o + j) 0 = y.getD (o' + j) 0) :
    dotAcc h x o = dotAcc h y o' := by
  rw [dotAcc_eq_sum, dotAcc_eq_sum]
  exact Finset.sum_congr rfl fun j hj => by
    rw [hxy j (Finset.mem_range.mp hj)]

theorem dotAccC_congr {K : Type} [LinearOrderedField K] {h : List K}
    {x y : List (K × K)} {o o' : ℕ}
    (hxy : ∀ j < h.length, x.getD (o + j) (0, 0) = y.getD (o' + j) (0, 0)) :
    dotAccC h x o = dotAccC h y o' := by
  rw [dotAccC_eq_sum, dotAccC_eq_sum]
  have h1 : ∀ j ∈ Finset.range h.length,
      h.getD j 0 * (x.getD (o + j) (0, 0)).1 =
        h.getD j 0 * (y.getD (o' + j) (0, 0)).1 := fun j hj => by
    rw [hxy j (Finset.mem_range.mp hj)]
  have h2 : ∀ j ∈ Finset.range h.length,
      h.getD j 0 * (x.getD (o + j) (0, 0)).2 =
        h.getD j 0 * (y.getD (o' + j) (0, 0)).2 := fun j hj => by
    rw [hxy j (Finset.mem_range.mp hj)]
  rw [Finset.sum_congr rfl h1, Finset.sum_congr rfl h2]

/-- Under the size preconditions, every used input offset lies strictly
inside the input block: Q*i/P < |input| for i < |output|. -/
theorem offset_lt_input {P Q inLen outLen i : ℕ} (hP : 0 < P) (hQ : 0 < Q)
    (hin : inLen % Q = 0) (hout : outLen % P = 0)
    (hdiv : inLen / Q = outLen / P) (hi : i < outLen) : Q * i / P < inLen := by
  have hol : P * (outLen / P) = outLen :=
    Nat.mul_div_cancel' (Nat.dvd_of_mod_eq_zero hout)
  have hil : Q * (inLen / Q) = inLen :=
    Nat.mul_div_cancel' (Nat.dvd_of_mod_eq_zero hin)
  have h2 : Q * outLen = inLen * P := by
    conv_lhs => rw [← hol]
    conv_rhs => rw [← hil, hdiv]
    ring
  rw [Nat.div_lt_iff_lt_mul hP]
  calc Q * i < Q * outLen := mul_lt_mul_of_pos_left hi hQ
    _ = inLen * P := h2

/-- Splitting an output index across a block boundary: with |a| input samples
and m output samples forming aligned blocks, the path entry of output m + j
is the entry of j shifted by |a| input samples, with the same partition. -/
theorem pathEntry_shift (P Q inLen m j : ℕ) (hP : 0 < P)
    (hin : inLen % Q = 0) (hm : m % P = 0) (hdiv : inLen / Q = m / P) :
    Q * (m + j) / P = inLen + Q * j / P ∧ Q * (m + j) % P = Q * j % P := by
  have hol : P * (m / P) = m := Nat.mul_div_cancel' (Nat.dvd_of_mod_eq_zero hm)
  have hil : Q * (inLen / Q) = inLen :=
    Nat.mul_div_cancel' (Nat.dvd_of_mod_eq_zero hin)
  have hQm : Q * m = P * inLen := by
    conv_lhs => rw [← hol]
    conv_rhs => rw [← hil, hdiv]
    ring
  have hsplit : Q * (m + j) = P * inLen + Q * j := by rw [Nat.mul_add, hQm]
  exact ⟨by rw [hsplit, Nat.mul_add_div hP], by rw [hsplit, Nat.mul_add_mod]⟩

theorem getD_drop {α : Type} (l : List α) (d : α) (k s : ℕ) :
    (l.drop k).getD s d = l.getD (k + s) d := by
  rw [List.getD_eq_getD_get?, List.getD_eq_getD_get?, List.get?_eq_getElem?,
    List.get?_eq_getElem?, List.getElem?_drop]

/-- Reading the extended buffer of the second block at |a| + s is reading the
tail-of-a history followed by b at s. -/
theorem extended_tail_getD {α : Type} (hist a b : List α) (d : α)
    (hlen : hist.length ≤ a.length) (s : ℕ) :
    (hist ++ (a ++ b)).getD (a.length + s) d =
      (a.drop (a.length - hist.length) ++ b).getD s d := by
  rw [List.getD_append_right _ _ _ _ (by omega)]
  have h1 : a.drop (a.length - hist.length) ++ b =
      (a ++ b).drop (a.length - hist.length) := by
    rw [List.drop_append_eq_append_drop]
    have h0 : a.length - hist.length - a.length = 0 := by omega
    rw [h0, List.drop_zero]
  rw [h1, getD_drop]
  congr 1
  omega

/-- A call fails with the invalid_argument error exactly when one of the four
size conditions of COPY_INPUT is violated. -/
theorem resampleG_error_iff {K α : Type} (conv : List K → List α → ℕ → α)
    (r : Resampler K α) (input : List α) (outLen : ℕ) :
    ((resampleG conv r input outLen).1 =
        Except.error "Invalid vector size(s)") ↔
      ¬(input.length % r.Q = 0 ∧ outLen % r.P = 0 ∧
        input.length / r.Q = outLen / r.P ∧
        r.history.length ≤ input.length) := by
  by_cases hb : badSizes r.Q r.P r.history.length input.length outLen
  · rw [resampleG_of_badSizes _ _ _ _ hb]
    have hc : ¬(input.length % r.Q = 0 ∧ outLen % r.P = 0 ∧
        input.length / r.Q = outLen / r.P ∧
        r.history.length ≤ input.length) := by
      intro hcon
      rw [← badSizes_eq_false] at hcon
      rw [hcon] at hb
      exact Bool.false_ne_true hb
    simp [hc]
  · rw [resampleG_of_goodSizes _ _ _ _ (by simpa using hb)]
    have hg := badSizes_eq_false.mp (by simpa using hb)
    simp [hg]

/-- When the size check fails the whole engine state is returned unchanged:
the throw happens before any mutation. -/
theorem resampleG_snd_of_error {K α : Type} (conv : List K → List α → ℕ → α)
    (r : Resampler K α) (input : List α) (outLen : ℕ) (e : String)
    (h : (resampleG conv r input outLen).1 = Except.error e) :
    (resampleG conv r input outLen).2 = r := by
  by_cases hb : badSizes r.Q r.P r.history.length input.length outLen
  · rw [resampleG_of_badSizes _ _ _ _ hb]
  · rw [resampleG_of_goodSizes _ _ _ _ (by simpa using hb)] at h
    exact Except.noConfusion h

/-- Claim C2: a resample call fails with the InvalidArgument error if and
only if one of the four preconditions (input length divisible by Q, output
length divisible by P, equal quotients, input at least taps-1 samples) is
violated, and on failure the history buffer is unchanged.  Stated for the
real and for the complex engine; r.history.length = taps - 1 is the
construction invariant tying the taps count to the history size the code
actually compares against. -/
theorem c2_size_validation :
    (∀ (K : Type) [inst : LinearOrderedField K] (r : Resampler K K)
        (sat : Option (K × K)) (input : List K) (outLen taps : ℕ),
        r.history.length = taps - 1 →
        (((RealResampler.resample r sat input outLen).1 =
            Except.error "Invalid vector size(s)") ↔
          ¬(input.length % r.Q = 0 ∧ outLen % r.P = 0 ∧
            input.length / r.Q = outLen / r.P ∧
            taps - 1 ≤ input.length)) ∧
        (((RealResampler.resample r sat input outLen).1 =
            Except.error "Invalid vector size(s)") →
          (RealResampler.resample r sat input outLen).2.history = r.history))
  ∧ (∀ (K : Type) [inst : LinearOrderedField K] (r : Resampler K (K × K))
        (sat : Option (K × K)) (input : List (K × K)) (outLen taps : ℕ),
        r.history.length = taps - 1 →
        (((ComplexResampler.resample r sat input outLen).1 =
            Except.error "Invalid vector size(s)") ↔
          ¬(input.length % r.Q = 0 ∧ outLen % r.P = 0 ∧
            input.length / r.Q = outLen / r.P ∧
            taps - 1 ≤ input.length)) ∧
        (((ComplexResampler.resample r sat input outLen).1 =
            Except.error "Invalid vector size(s)") →
          (ComplexResampler.resample r sat input outLen).2.history =
            r.history)) := by
  constructor
  · intro K inst r sat input outLen taps hh
    refine ⟨?_, fun he => ?_⟩
    · rw [← hh]
      exact resampleG_error_iff _ r input outLen
    · rw [RealResampler.resample] at he ⊢
      rw [resampleG_snd_of_error _ r input outLen _ he]
  · intro K inst r sat input outLen taps hh
    refine ⟨?_, fun he => ?_⟩
    · rw [← hh]
      exact resampleG_error_iff _ r input outLen
    · rw [ComplexResampler.resample] at he ⊢
      rw [resampleG_snd_of_error _ r input outLen _ he]

/-- Claim C10: when resample fails validation, the entire engine state is
unchanged, including the path table, because the size check precedes the
resize and every other mutation. -/
theorem c10_no_mutation_on_error :
    (∀ (K : Type) [inst : LinearOrderedField K] (r : Resampler K K)
        (sat : Option (K × K)) (input : List K) (outLen : ℕ) (e : String),
        (RealResampler.resample r sat input outLen).1 = Except.error e →
        (RealResampler.resample r sat input outLen).2 = r)
  ∧ (∀ (K : Type) [inst : LinearOrderedField K] (r : Resampler K (K × K))
        (sat : Option (K × K)) (input : List (K × K)) (outLen : ℕ)
        (e : String),
        (ComplexResampler.resample r sat input outLen).1 = Except.error e →
        (ComplexResampler.resample r sat input outLen).2 = r) := by
  exact ⟨fun K inst r sat input outLen e he =>
      resampleG_snd_of_error _ r input outLen e he,
    fun K inst r sat input outLen e he =>
      resampleG_snd_of_error _ r input outLen e he⟩

/-- Claim C3: every path-table entry is ((Q*i)/P, (Q*i) mod P); this is true
of any table produced by resize, hence after construction (resize 128) and
after every growth; partition indices are below P and input offsets are
monotone in the output index. -/
theorem c3_path_entries :
    (∀ P Q n i : ℕ, i < n →
        (resize P Q n).getD i (0, 0) = (Q * i / P, Q * i % P))
  ∧ (∀ P Q i : ℕ, 0 < P → Q * i % P < P)
  ∧ (∀ P Q i j : ℕ, i ≤ j → Q * i / P ≤ Q * j / P)
  ∧ (∀ (K α : Type) (z : α) (parts : List (List K)) (P Q taps : ℕ)
        (e : Resampler K α),
        mkResampler z parts P Q taps = Except.ok e → pathsOk e)
  ∧ (∀ (K α : Type) (conv : List K → List α → ℕ → α)
        (r r' : Resampler K α) (input : List α) (outLen : ℕ) (out : List α),
        resampleG conv r input outLen = (Except.ok out, r') →
        pathsOk r → pathsOk r') := by
  refine ⟨fun P Q n i hi => resize_getD hi,
    fun P Q i hP => Nat.mod_lt _ hP,
    fun P Q i j hij => Nat.div_le_div_right (Nat.mul_le_mul_left Q hij),
    fun K α z parts P Q taps e he => ?_,
    fun K α conv r r' input outLen out h hp => pathsOk_after h hp⟩
  rw [mkResampler] at he
  by_cases hP : P = 0
  · rw [if_pos hP] at he
    exact Except.noConfusion he
  · rw [if_neg hP] at he
    injection he with he
    subst he
    intro i hi
    exact resize_getD (by simpa [resize_length] using hi)

theorem histSize_eq {taps : ℕ} (h1 : 1 ≤ taps) (h2 : taps < 2 ^ 32) :
    histSize taps = taps - 1 := by
  have hpow : (2 : ℕ) ^ 32 = 4294967296 := by norm_num
  rw [histSize, hpow]
  rw [hpow] at h2
  omega

/-- Claim C6: the history buffer has length taps-1 and is all zeros right
after construction; after every successful resample it holds the last taps-1
input samples, which are also the tail of the extended buffer; resample
leaves P, Q and the partitions unchanged (the history is the only mutated
sample state). -/
theorem c6_history :
    (∀ P Q taps : ℕ, 1 ≤ taps → taps < 2 ^ 32 →
        ∀ e : Resampler ℝ ℝ,
          RealResampler.construct P Q taps = Except.ok e →
          e.history = List.replicate (taps - 1) 0)
  ∧ (∀ P Q taps : ℕ, 1 ≤ taps → taps < 2 ^ 32 →
        ∀ e : Resampler ℝ (ℝ × ℝ),
          ComplexResampler.construct P Q taps = Except.ok e →
          e.history = List.replicate (taps - 1) (0, 0))
  ∧ (∀ (K α : Type) (conv : List K → List α → ℕ → α)
        (r r' : Resampler K α) (input : List α) (outLen taps : ℕ)
        (out : List α),
        1 ≤ taps → r.history.length = taps - 1 →
        resampleG conv r input outLen = (Except.ok out, r') →
        r'.history = input.drop (input.length - (taps - 1)) ∧
        r'.history.length = taps - 1 ∧
        r'.history = (r.history ++ input).drop
          ((r.history ++ input).length - (taps - 1)) ∧
        r'.partitions = r.partitions ∧ r'.P = r.P ∧ r'.Q = r.Q) := by
  refine ⟨fun P Q taps h1 h2 e he => ?_, fun P Q taps h1 h2 e he => ?_,
    fun K α conv r r' input outLen taps out ht hh h => ?_⟩
  · rw [RealResampler.construct, mkResampler] at he
    by_cases hP : P = 0
    · rw [if_pos hP] at he
      exact Except.noConfusion he
    · rw [if_neg hP] at he
      injection he with he
      subst he
      rw [histSize_eq h1 h2]
  · rw [ComplexResampler.construct, mkResampler] at he
    by_cases hP : P = 0
    · rw [if_pos hP] at he
      exact Except.noConfusion he
    · rw [if_neg hP] at he
      injection he with he
      subst he
      rw [histSize_eq h1 h2]
  · obtain ⟨hgood, -, -⟩ := resampleG_ok_elim h
    obtain ⟨-, -, hparts, hhist, -⟩ := resampleG_state h
    have hle : taps - 1 ≤ input.length := by
      have := (badSizes_eq_false.mp hgood).2.2.2
      omega
    have hhist' : r'.history = input.drop (input.length - (taps - 1)) := by
      rw [hhist, hh]
    refine ⟨hhist', by rw [hhist']; simp [List.length_drop]; omega, ?_,
      hparts, (resampleG_state h).1, (resampleG_state h).2.1⟩
    rw [hhist']
    have hlen : (r.history ++ input).length - (taps - 1) = input.length := by
      simp [List.length_append, hh]
    rw [hlen, List.drop_append_eq_append_drop]
    have hnil : r.history.drop input.length = [] := by
      apply List.drop_eq_nil_of_le
      omega
    rw [hnil, List.nil_append]
    congr 1
    omega

/-- Claim C8 counterexample: construction with the non-positive parameter
Q = 0 (P = 1, taps = 2) is not rejected and surfaces no error: the
constructor completes normally and returns an engine. -/
theorem c8_counterexample :
    ¬ ∀ P Q taps : ℕ, (P = 0 ∨ Q = 0 ∨ taps = 0) →
        ∀ e : Resampler ℝ ℝ, RealResampler.construct P Q taps ≠ Except.ok e := by
  intro hclaim
  exact hclaim 1 0 2 (Or.inr (Or.inl rfl))
    { P := 1, Q := 0, partitions := init 1 0 2, paths := resize 1 0 128,
      history := List.replicate (histSize 2) 0 } rfl

/-- Claim C8 (amended): the constructor itself validates nothing.  Only
P = 0 is fatal at construction (the unsigned division Q*i / P in resize is a
division by zero, modelled as the error case); for every positive P the
construction succeeds whatever Q and taps are, so a non-positive Q or taps
is NOT surfaced at construction.  Non-positive P and Q are instead rejected
upstream by the command line layer before an engine is ever constructed. -/
theorem c8_construct_validation :
    (∀ P Q taps : ℕ,
        (∃ e, RealResampler.construct P Q taps = Except.ok e) ↔ 0 < P)
  ∧ (∀ P Q taps : ℕ,
        (∃ e, ComplexResampler.construct P Q taps = Except.ok e) ↔ 0 < P)
  ∧ (∀ P Q taps : ℕ, P = 0 →
        RealResampler.construct P Q taps =
          Except.error "division by zero in resize") := by
  refine ⟨fun P Q taps => ?_, fun P Q taps => ?_, fun P Q taps hP => ?_⟩
  · rw [RealResampler.construct, mkResampler]
    by_cases hP : P = 0
    · simp [hP]
    · simp [hP, Nat.pos_of_ne_zero hP]
  · rw [ComplexResampler.construct, mkResampler]
    by_cases hP : P = 0
    · simp [hP]
    · simp [hP, Nat.pos_of_ne_zero hP]
  · rw [RealResampler.construct, mkResampler, if_pos hP]

/-- Claim C4: after construction, partition p at tap index j holds beta times
the prototype sample at flat index (taps-1-j)*P + p (de-interleave by j*P+p
followed by in-place reversal of each partition), where a prototype sample
is the sinc value at (i - N/2)/max(P,Q) times the 4-term Blackman-Harris
window and beta is P over the sum of all N windowed samples.  The second and
third conjunct spell out the sample formula and beta. -/
theorem c4_filter_design (P Q taps p j : ℕ) (hp : p < P) (hj : j < taps) :
    ((init P Q taps).getD p []).getD j 0 =
      filterBeta P Q taps * protoSample P Q taps ((taps - 1 - j) * P + p) ∧
    (∀ i : ℕ, protoSample P Q taps i =
      sinc (((i : ℝ) - (P * taps : ℕ) / 2) / (max P Q : ℕ)) *
        (0.35875 - 0.48829 * Real.cos (2 * Real.pi * i / (P * taps : ℕ))
          + 0.14128 * Real.cos (4 * Real.pi * i / (P * taps : ℕ))
          - 0.01168 * Real.cos (6 * Real.pi * i / (P * taps : ℕ)))) ∧
    filterBeta P Q taps =
      (P : ℝ) / ∑ i in Finset.range (P * taps), protoSample P Q taps i := by
  refine ⟨?_, fun i => rfl, rfl⟩
  have h1 : (init P Q taps).getD p [] =
      ((List.range taps).map fun j =>
        protoSample P Q taps (j * P + p) * filterBeta P Q taps).reverse := by
    rw [init, List.getD_eq_getElem _ _ (by simpa using hp)]
    simp
  rw [h1, List.getD_eq_getElem _ _ (by simpa using hj), List.getElem_reverse]
  simp only [List.length_reverse, List.length_map, List.length_range,
    List.getElem_map, List.getElem_range]
  rw [mul_comm]

/-- The partition selected for output index i has exactly taps coefficients
when the partition table is well formed. -/
theorem selected_partition_length {K α : Type} (r : Resampler K α)
    (taps idx : ℕ) (hplen : r.partitions.length = r.P) (hP : 0 < r.P)
    (hpw : ∀ hl ∈ r.partitions, hl.length = taps) (hidx : idx < r.P) :
    (r.partitions.getD idx []).length = taps := by
  have hin : idx < r.partitions.length := by rw [hplen]; exact hidx
  rw [List.getD_eq_getElem _ _ hin]
  exact hpw _ (List.getElem_mem hin)

/-- Claim C1: for a successful call, output i is the dot product, in the
exact accumulator, of partition (Q*i) mod P with the taps-sample window of
the extended buffer (history ++ input) starting at offset (Q*i)/P; for the
complex engine the real and imaginary components are accumulated
independently against the same real coefficients.  Stated for the
floating-point instantiations (sat = none), whose outputs are the raw
accumulators. -/
theorem c1_output_dot_product :
    (∀ (K : Type) [inst : LinearOrderedField K] (r r' : Resampler K K)
        (input out : List K) (outLen i taps : ℕ),
        0 < r.P → r.partitions.length = r.P →
        (∀ hl ∈ r.partitions, hl.length = taps) → pathsOk r →
        RealResampler.resample r none input outLen = (Except.ok out, r') →
        i < outLen →
        out.getD i 0 = ∑ j in Finset.range taps,
          (r.partitions.getD (r.Q * i % r.P) []).getD j 0 *
            (r.history ++ input).getD (r.Q * i / r.P + j) 0)
  ∧ (∀ (K : Type) [inst : LinearOrderedField K] (r r' : Resampler K (K × K))
        (input out : List (K × K)) (outLen i taps : ℕ),
        0 < r.P → r.partitions.length = r.P →
        (∀ hl ∈ r.partitions, hl.length = taps) → pathsOk r →
        ComplexResampler.resample r none input outLen = (Except.ok out, r') →
        i < outLen →
        out.getD i (0, 0) =
          (∑ j in Finset.range taps,
            (r.partitions.getD (r.Q * i % r.P) []).getD j 0 *
              ((r.history ++ input).getD (r.Q * i / r.P + j) (0, 0)).1,
           ∑ j in Finset.range taps,
            (r.partitions.getD (r.Q * i % r.P) []).getD j 0 *
              ((r.history ++ input).getD (r.Q * i / r.P + j) (0, 0)).2)) := by
  constructor
  · intro K inst r r' input out outLen i taps hP hplen hpw hpa h hi
    rw [RealResampler.resample] at h
    rw [resampleG_out_getD 0 h hpa hi]
    have hlen : (r.partitions.getD (r.Q * i % r.P) []).length = taps :=
      selected_partition_length r taps _ hplen hP hpw (Nat.mod_lt _ hP)
    simp only [saturate]
    rw [dotAcc_eq_sum, hlen]
  · intro K inst r r' input out outLen i taps hP hplen hpw hpa h hi
    rw [ComplexResampler.resample] at h
    rw [resampleG_out_getD (0, 0) h hpa hi]
    have hlen : (r.partitions.getD (r.Q * i % r.P) []).length = taps :=
      selected_partition_length r taps _ hplen hP hpw (Nat.mod_lt _ hP)
    simp only [saturateC]
    rw [dotAccC_eq_sum, hlen]

/-- Variant of the output formula that names the path entry actually stored
in the resulting path table, without assuming anything about the cached
entries. -/
theorem resampleG_out_getD_raw {K α : Type} {conv : List K → List α → ℕ → α}
    {r r' : Resampler K α} {input : List α} {outLen i : ℕ} {out : List α}
    (d : α) (h : resampleG conv r input outLen = (Except.ok out, r'))
    (hi : i < outLen) :
    out.getD i d =
      conv (r.partitions.getD ((r'.paths.getD i (0, 0)).2) [])
        (r.history ++ input) ((r'.paths.getD i (0, 0)).1) := by
  obtain ⟨-, h2, h3⟩ := resampleG_ok_elim h
  subst h2
  subst h3
  rw [List.getD_eq_getElem _ _ (by simpa using hi)]
  simp only [List.getElem_map, List.getElem_range]

/-- Claim C5: for integer element types (sat = some (typeMin, typeMax),
typeMin <= typeMax) every output component of a successful call lies in
[typeMin, typeMax]; for floating element types (sat = none) no clamping is
applied and the outputs are exactly the raw accumulated dot products. -/
theorem c5_saturation :
    (∀ (K : Type) [inst : LinearOrderedField K] (r r' : Resampler K K)
        (lo hi : K) (input out : List K) (outLen : ℕ),
        lo ≤ hi →
        RealResampler.resample r (some (lo, hi)) input outLen =
          (Except.ok out, r') →
        ∀ y ∈ out, lo ≤ y ∧ y ≤ hi)
  ∧ (∀ (K : Type) [inst : LinearOrderedField K] (r r' : Resampler K (K × K))
        (lo hi : K) (input out : List (K × K)) (outLen : ℕ),
        lo ≤ hi →
        ComplexResampler.resample r (some (lo, hi)) input outLen =
          (Except.ok out, r') →
        ∀ y ∈ out, (lo ≤ y.1 ∧ y.1 ≤ hi) ∧ (lo ≤ y.2 ∧ y.2 ≤ hi))
  ∧ (∀ (K : Type) [inst : LinearOrderedField K] (r r' : Resampler K K)
        (input out : List K) (outLen i : ℕ),
        RealResampler.resample r none input outLen = (Except.ok out, r') →
        i < outLen →
        out.getD i 0 =
          dotAcc (r.partitions.getD ((r'.paths.getD i (0, 0)).2) [])
            (r.history ++ input) ((r'.paths.getD i (0, 0)).1))
  ∧ (∀ (K : Type) [inst : LinearOrderedField K] (r r' : Resampler K (K × K))
        (input out : List (K × K)) (outLen i : ℕ),
        ComplexResampler.resample r none input outLen = (Except.ok out, r') →
        i < outLen →
        out.getD i (0, 0) =
          dotAccC (r.partitions.getD ((r'.paths.getD i (0, 0)).2) [])
            (r.history ++ input) ((r'.paths.getD i (0, 0)).1)) := by
  refine ⟨?_, ?_, ?_, ?_⟩
  · intro K inst r r' lo hi input out outLen hlohi h
    rw [RealResampler.resample] at h
    obtain ⟨-, h2, -⟩ := resampleG_ok_elim h
    subst h2
    intro y hy
    obtain ⟨a, ha, rfl⟩ := List.mem_map.mp hy
    simp only [saturate]
    exact ⟨le_min hlohi (le_max_left _ _), min_le_left _ _⟩
  · intro K inst r r' lo hi input out outLen hlohi h
    rw [ComplexResampler.resample] at h
    obtain ⟨-, h2, -⟩ := resampleG_ok_elim h
    subst h2
    intro y hy
    obtain ⟨a, ha, rfl⟩ := List.mem_map.mp hy
    simp only [saturateC]
    exact ⟨⟨le_min hlohi (le_max_left _ _), min_le_left _ _⟩,
      ⟨le_min hlohi (le_max_left _ _), min_le_left _ _⟩⟩
  · intro K inst r r' input out outLen i h hi
    rw [RealResampler.resample] at h
    rw [resampleG_out_getD_raw 0 h hi]
    simp only [saturate]
  · intro K inst r r' input out outLen i h hi
    rw [ComplexResampler.resample] at h
    rw [resampleG_out_getD_raw (0, 0) h hi]
    simp only [saturateC]

/-- Once the size checks pass, every access of the convolution loop is in
bounds: the path table has an entry for every output index, the partition
index is below P, and the window of taps samples fits inside the extended
buffer. -/
theorem resampleG_in_bounds {K α : Type} {conv : List K → List α → ℕ → α}
    {r r' : Resampler K α} {input : List α} {outLen taps : ℕ} {out : List α}
    (hP : 0 < r.P) (hQ : 0 < r.Q) (ht : 1 ≤ taps)
    (hh : r.history.length = taps - 1) (hpa : pathsOk r)
    (h : resampleG conv r input outLen = (Except.ok out, r')) :
    out.length = outLen ∧
    ∀ i < outLen,
      i < r'.paths.length ∧
      (r'.paths.getD i (0, 0)).2 < r.P ∧
      (r'.paths.getD i (0, 0)).1 + taps ≤ (taps - 1) + input.length := by
  obtain ⟨hgood, -, h3⟩ := resampleG_ok_elim h
  obtain ⟨hin, hout, hdiv, hlen⟩ := badSizes_eq_false.mp hgood
  refine ⟨resampleG_out_length h, fun i hi => ?_⟩
  have hpe : r'.paths.getD i (0, 0) = pathEntry r.P r.Q i := by
    rw [h3]
    exact usedPaths_getD r outLen i hpa hi
  have hplen : i < r'.paths.length := by
    rw [h3]
    by_cases hg : r.paths.length < outLen
    · simpa only [if_pos hg, resize_length] using hi
    · simp only [if_neg hg]
      omega
  have hofflt : r.Q * i / r.P < input.length :=
    offset_lt_input hP hQ hin hout hdiv hi
  refine ⟨hplen, ?_, ?_⟩
  · rw [hpe]
    exact Nat.mod_lt _ hP
  · rw [hpe]
    show r.Q * i / r.P + taps ≤ (taps - 1) + input.length
    omega

/-- Claim C9: once the preconditions pass, the loop cannot fail: the output
is fully produced, the path table covers every output index, every selected
partition index is a valid partition subscript and every convolution window
lies inside the extended buffer. -/
theorem c9_loop_safety :
    (∀ (K : Type) [inst : LinearOrderedField K] (r r' : Resampler K K)
        (sat : Option (K × K)) (input out : List K) (outLen taps : ℕ),
        0 < r.P → 0 < r.Q → 1 ≤ taps → r.history.length = taps - 1 →
        r.partitions.length = r.P → pathsOk r →
        RealResampler.resample r sat input outLen = (Except.ok out, r') →
        out.length = outLen ∧
        ∀ i < outLen,
          i < r'.paths.length ∧
          (r'.paths.getD i (0, 0)).2 < r.partitions.length ∧
          (r'.paths.getD i (0, 0)).1 + taps ≤ (taps - 1) + input.length)
  ∧ (∀ (K : Type) [inst : LinearOrderedField K] (r r' : Resampler K (K × K))
        (sat : Option (K × K)) (input out : List (K × K)) (outLen taps : ℕ),
        0 < r.P → 0 < r.Q → 1 ≤ taps → r.history.length = taps - 1 →
        r.partitions.length = r.P → pathsOk r →
        ComplexResampler.resample r sat input outLen = (Except.ok out, r') →
        out.length = outLen ∧
        ∀ i < outLen,
          i < r'.paths.length ∧
          (r'.paths.getD i (0, 0)).2 < r.partitions.length ∧
          (r'.paths.getD i (0, 0)).1 + taps ≤ (taps - 1) + input.length) := by
  constructor
  · intro K inst r r' sat input out outLen taps hP hQ ht hh hplen hpa h
    rw [RealResampler.resample] at h
    obtain ⟨hl, hb⟩ := resampleG_in_bounds hP hQ ht hh hpa h
    refine ⟨hl, fun i hi => ?_⟩
    obtain ⟨b1, b2, b3⟩ := hb i hi
    exact ⟨b1, by rw [hplen]; exact b2, b3⟩
  · intro K inst r r' sat input out outLen taps hP hQ ht hh hplen hpa h
    rw [ComplexResampler.resample] at h
    obtain ⟨hl, hb⟩ := resampleG_in_bounds hP hQ ht hh hpa h
    refine ⟨hl, fun i hi => ?_⟩
    obtain ⟨b1, b2, b3⟩ := hb i hi
    exact ⟨b1, by rw [hplen]; exact b2, b3⟩

/-- Generic block invariance: feeding a ++ b in one call produces the same
outputs as feeding a then b in two calls with the history carried over,
for any window-local convolution function. -/
theorem resampleG_block {K α : Type} (d : α) (conv : List K → List α → ℕ → α)
    (Hconv : ∀ (hl : List K) (x y : List α) (o o' : ℕ),
      (∀ j < hl.length, x.getD (o + j) d = y.getD (o' + j) d) →
      conv hl x o = conv hl y o')
    (r r1 r2 r' : Resampler K α) (taps : ℕ) (ht : 1 ≤ taps)
    (hh : r.history.length = taps - 1)
    (hplen : r.partitions.length = r.P)
    (hpw : ∀ hl ∈ r.partitions, hl.length = taps)
    (hP : 0 < r.P) (hQ : 0 < r.Q) (hpaths : pathsOk r)
    (a b out1 out2 out : List α) (m n : ℕ)
    (h1 : resampleG conv r a m = (Except.ok out1, r1))
    (h2 : resampleG conv r1 b n = (Except.ok out2, r2))
    (h3 : resampleG conv r (a ++ b) (m + n) = (Except.ok out, r')) :
    out = out1 ++ out2 := by
  obtain ⟨hg1, -, -⟩ := resampleG_ok_elim h1
  obtain ⟨ha_in, ha_out, ha_div, ha_len⟩ := badSizes_eq_false.mp hg1
  obtain ⟨h1P, h1Q, h1parts, h1hist, -⟩ := resampleG_state h1
  have hpaths1 : pathsOk r1 := pathsOk_after h1 hpaths
  have hm1 : out1.length = m := resampleG_out_length h1
  have hl : out.length = (out1 ++ out2).length := by
    rw [List.length_append, resampleG_out_length h1,
      resampleG_out_length h2, resampleG_out_length h3]
  apply List.ext_getElem hl
  intro i hilt hilt2
  have hi : i < m + n := by
    rw [resampleG_out_length h3] at hilt
    exact hilt
  rw [← List.getD_eq_getElem out d hilt, ← List.getD_eq_getElem _ d hilt2]
  by_cases him : i < m
  · rw [List.getD_append _ _ _ _ (by omega)]
    rw [resampleG_out_getD d h3 hpaths hi, resampleG_out_getD d h1 hpaths him]
    apply Hconv
    intro j hj
    have hlenp : (r.partitions.getD (r.Q * i % r.P) []).length = taps :=
      selected_partition_length r taps _ hplen hP hpw (Nat.mod_lt _ hP)
    have hofflt : r.Q * i / r.P < a.length :=
      offset_lt_input hP hQ ha_in ha_out ha_div him
    have hidx : r.Q * i / r.P + j < (r.history ++ a).length := by
      rw [List.length_append, hh]
      rw [hlenp] at hj
      omega
    rw [← List.append_assoc]
    exact List.getD_append _ _ _ _ hidx
  · obtain ⟨jj, rfl⟩ : ∃ jj, i = m + jj := ⟨i - m, by omega⟩
    have hjn : jj < n := by omega
    rw [List.getD_append_right _ _ _ _ (by omega)]
    have hsub : m + jj - out1.length = jj := by omega
    rw [hsub]
    rw [resampleG_out_getD d h3 hpaths hi, resampleG_out_getD d h2 hpaths1 hjn]
    rw [h1P, h1Q, h1parts, h1hist]
    obtain ⟨hdiv2, hmod2⟩ :=
      pathEntry_shift r.P r.Q a.length m jj hP ha_in ha_out ha_div
    rw [hdiv2, hmod2]
    apply Hconv
    intro j hj
    rw [add_assoc]
    exact extended_tail_getD r.history a b d (by omega) (r.Q * jj / r.P + j)

/-- Claim C7: for every legal split of the input into two consecutive blocks
respecting the alignment preconditions, one call over the whole input
produces exactly the same outputs as two successive calls with the history
carried between them.  (Arbitrary finite splits follow by iterating.) -/
theorem c7_block_invariance :
    (∀ (K : Type) [inst : LinearOrderedField K] (r r1 r2 r' : Resampler K K)
        (sat : Option (K × K)) (taps : ℕ) (a b out1 out2 out : List K)
        (m n : ℕ),
        1 ≤ taps → r.history.length = taps - 1 →
        r.partitions.length = r.P →
        (∀ hl ∈ r.partitions, hl.length = taps) →
        0 < r.P → 0 < r.Q → pathsOk r →
        RealResampler.resample r sat a m = (Except.ok out1, r1) →
        RealResampler.resample r1 sat b n = (Except.ok out2, r2) →
        RealResampler.resample r sat (a ++ b) (m + n) = (Except.ok out, r') →
        out = out1 ++ out2)
  ∧ (∀ (K : Type) [inst : LinearOrderedField K]
        (r r1 r2 r' : Resampler K (K × K)) (sat : Option (K × K)) (taps : ℕ)
        (a b out1 out2 out : List (K × K)) (m n : ℕ),
        1 ≤ taps → r.history.length = taps - 1 →
        r.partitions.length = r.P →
        (∀ hl ∈ r.partitions, hl.length = taps) →
        0 < r.P → 0 < r.Q → pathsOk r →
        ComplexResampler.resample r sat a m = (Except.ok out1, r1) →
        ComplexResampler.resample r1 sat b n = (Except.ok out2, r2) →
        ComplexResampler.resample r sat (a ++ b) (m + n) =
          (Except.ok out, r') →
        out = out1 ++ out2) := by
  constructor
  · intro K inst r r1 r2 r' sat taps a b out1 out2 out m n ht hh hplen hpw hP
      hQ hpa h1 h2 h3
    rw [RealResampler.resample] at h1 h2 h3
    exact resampleG_block 0 (fun hl x off => saturate sat (dotAcc hl x off))
      (fun hl x y o o' hxy => congrArg (saturate sat) (dotAcc_congr hxy))
      r r1 r2 r' taps ht hh hplen hpw hP hQ hpa a b out1 out2 out m n h1 h2 h3
  · intro K inst r r1 r2 r' sat taps a b out1 out2 out m n ht hh hplen hpw hP
      hQ hpa h1 h2 h3
    rw [ComplexResampler.resample] at h1 h2 h3
    exact resampleG_block (0, 0)
      (fun hl x off => saturateC sat (dotAccC hl x off))
      (fun hl x y o o' hxy => congrArg (saturateC sat) (dotAccC_congr hxy))
      r r1 r2 r' taps ht hh hplen hpw hP hQ hpa a b out1 out2 out m n h1 h2 h3

/-! Witnesses: each theorem with hypotheses evaluated at one explicit
concrete input. -/

/-- C1 witness: on the engine exR1 with input [3], output sample 0 is 6, the
dot product of the partition [2] with the window [3]. -/
theorem c1_witness :
    ([(6 : ℚ)]).getD 0 0 = ∑ j in Finset.range 1,
      (exR1.partitions.getD (exR1.Q * 0 % exR1.P) []).getD j 0 *
        ((exR1.history ++ [3]).getD (exR1.Q * 0 / exR1.P + j) 0) :=
  c1_output_dot_product.1 ℚ exR1 exR1 [3] [6] 1 0 1 (by decide) (by decide)
    (by decide) (by unfold pathsOk; decide)
    (by norm_num [RealResampler.resample, resampleG, exR1, badSizes, resize,
      pathEntry, dotAcc, saturate, List.range_succ]) (by decide)

/-- C2 witness: with exR1 and input [1] but output length 2, the quotient
check fails and the call errors. -/
theorem c2_witness :
    ((RealResampler.resample exR1 none [(1 : ℚ)] 2).1 =
        Except.error "Invalid vector size(s)") ↔
      ¬(([(1 : ℚ)]).length % exR1.Q = 0 ∧ 2 % exR1.P = 0 ∧
        ([(1 : ℚ)]).length / exR1.Q = 2 / exR1.P ∧
        1 - 1 ≤ ([(1 : ℚ)]).length) :=
  (c2_size_validation.1 ℚ exR1 none [1] 2 1 (by decide)).1

/-- C3 witness: the third path entry of a 7/4 table. -/
theorem c3_witness : (resize 7 4 3).getD 2 (0, 0) = (4 * 2 / 7, 4 * 2 % 7) :=
  c3_path_entries.1 7 4 3 2 (by decide)

/-- C4 witness: partition 1, tap 2 of the P=2, Q=1, taps=3 filter. -/
theorem c4_witness :
    ((init 2 1 3).getD 1 []).getD 2 0 =
      filterBeta 2 1 3 * protoSample 2 1 3 ((3 - 1 - 2) * 2 + 1) :=
  (c4_filter_design 2 1 3 1 2 (by decide) (by decide)).1

/-- C5 witness: with saturation bounds [-1, 1] the accumulated 6 is clamped
into the interval (the output sample is 1). -/
theorem c5_witness : (-1 : ℚ) ≤ 1 ∧ (1 : ℚ) ≤ 1 :=
  c5_saturation.1 ℚ exR1 exR1 (-1) 1 [3] [1] 1 (by decide)
    (by norm_num [RealResampler.resample, resampleG, exR1, badSizes, resize,
      pathEntry, dotAcc, saturate, List.range_succ]) 1
    (by decide)

/-- C6 witness: the engine built by construct 1 1 2 has the zero history of
length taps - 1 = 1. -/
theorem c6_witness :
    (⟨1, 1, init 1 1 2, resize 1 1 128,
      List.replicate (histSize 2) 0⟩ : Resampler ℝ ℝ).history =
      List.replicate (2 - 1) (0 : ℝ) :=
  c6_history.1 1 1 2 (by decide) (by norm_num)
    ⟨1, 1, init 1 1 2, resize 1 1 128, List.replicate (histSize 2) 0⟩ rfl

/-- C7 witness: resampling [1] ++ [2] in one call gives [2, 4], the
concatenation of the two block results [2] and [4]. -/
theorem c7_witness : [(2 : ℚ), 4] = [2] ++ [4] :=
  c7_block_invariance.1 ℚ exR1 exR1 exR1
    ⟨1, 1, [[2]], [(0, 0), (1, 0)], []⟩ none 1 [1] [2] [2] [4] [2, 4] 1 1
    (by decide) (by decide) (by decide) (by decide) (by decide) (by decide)
    (by unfold pathsOk; decide)
    (by norm_num [RealResampler.resample, resampleG, exR1, badSizes, resize,
      pathEntry, dotAcc, saturate, List.range_succ])
    (by norm_num [RealResampler.resample, resampleG, exR1, badSizes, resize,
      pathEntry, dotAcc, saturate, List.range_succ])
    (by norm_num [RealResampler.resample, resampleG, exR1, badSizes, resize,
      pathEntry, dotAcc, saturate, List.range_succ])

/-- C8 witness (amended claim): P = 0 is fatal at construction. -/
theorem c8_witness :
    RealResampler.construct 0 5 4 =
      Except.error "division by zero in resize" :=
  c8_construct_validation.2.2 0 5 4 rfl

/-- C9 witness: a successful call on exR1 fills the single output sample. -/
theorem c9_witness : ([(6 : ℚ)]).length = 1 :=
  (c9_loop_safety.1 ℚ exR1 exR1 none [3] [6] 1 1 (by decide) (by decide)
    (by decide) (by decide) (by decide) (by unfold pathsOk; decide)
    (by norm_num [RealResampler.resample, resampleG, exR1, badSizes, resize,
      pathEntry, dotAcc, saturate, List.range_succ])).1

/-- C10 witness: the failing call of the C2 witness leaves the whole state
untouched. -/
theorem c10_witness :
    (RealResampler.resample exR1 none [(1 : ℚ)] 2).2 = exR1 :=
  c10_no_mutation_on_error.1 ℚ exR1 none [1] 2 "Invalid vector size(s)"
    (by decide)

end Resample
